import Mathlib

set_option linter.unusedVariables false

/-!
Shallow embedding of `src/bet.py`: a biased coin-flip betting simulator.

Modelling choices:
* Bankrolls, wagers and configuration amounts are integers (`ℤ`), as in the
  source, where `start`, `target` and `min_bet` are integers and every policy
  returns an integer stake.
* The random draw `q = random.uniform(0, 1); self.p >= q` is abstracted as a
  Boolean stream `draws : ℕ → Bool`; `draws k` is the outcome (win or lose) of
  the k-th settled round of a trial.  The win probability `p` enters the
  program only through this comparison, so it does not appear in the embedding.
* Python floats (the `fraction` parameter) are modelled as exact rationals
  (`ℚ`); the builtin `round` is round-half-to-even, modelled by
  `roundHalfEven` below.
* The `while` loop of `Strategy.run` need not terminate for an arbitrary
  policy and an arbitrary draw stream, so it is embedded with explicit fuel:
  `runLoop` returns `none` when the fuel is exhausted before the loop exits.
-/

namespace Bet

/-- The configuration fields stored by `Strategy.__init__`
(`src/bet.py` lines 8-13), except `p`, which is absorbed into the draw
stream (see the module docstring). -/
structure Config where
  start : ℤ
  target : ℤ
  minBet : ℤ
  winIsBetAmount : Bool
deriving DecidableEq, Repr

/-- `Strategy.should_bet_again` (`src/bet.py` lines 15-22). -/
def should_bet_again (c : Config) (curr totalBet : ℤ) : Bool :=
  if curr < c.minBet then false
  else if c.winIsBetAmount then decide (totalBet < c.target)
  else decide (curr < c.target)

/-- The mutable per-trial state of `Strategy.run`: `curr`, `total_bet` and
`nsteps` (`src/bet.py` lines 25-27). -/
structure TrialState where
  curr : ℤ
  totalBet : ℤ
  nsteps : ℕ
deriving DecidableEq, Repr

/-- Result of one iteration of the `while` loop of `Strategy.run`:
either the loop exits (`done`, carrying the state at exit) or it performs a
settled round and continues (`cont`). -/
inductive StepResult where
  | done : TrialState → StepResult
  | cont : TrialState → StepResult
deriving DecidableEq, Repr

/-- One iteration of the `while` loop of `Strategy.run`
(`src/bet.py` lines 29-40), parameterised by the dispatched
`get_next_bet` of the concrete strategy: test `should_bet_again`; fetch the
raw bet; `break` if it exceeds the bankroll; otherwise clamp it to
`max(min_bet, bet)`, count the step, add the stake to `total_bet`, and move
the bankroll up or down according to the draw. -/
def step (c : Config) (nextBet : ℤ → ℤ → ℤ) (draws : ℕ → Bool)
    (s : TrialState) : StepResult :=
  if should_bet_again c s.curr s.totalBet then
    let bet := nextBet s.curr s.totalBet
    if bet > s.curr then .done s
    else
      let bet' := max c.minBet bet
      let curr' := if draws s.nsteps then s.curr + bet' else s.curr - bet'
      .cont ⟨curr', s.totalBet + bet', s.nsteps + 1⟩
  else .done s

/-- The `while` loop of `Strategy.run`, with fuel: `none` means the fuel ran
out before the loop exited. -/
def runLoop (c : Config) (nextBet : ℤ → ℤ → ℤ) (draws : ℕ → Bool) :
    ℕ → TrialState → Option TrialState
  | 0, _ => none
  | fuel + 1, s =>
    match step c nextBet draws s with
    | .done t => some t
    | .cont t => runLoop c nextBet draws fuel t

/-- The win test at the end of `Strategy.run` (`src/bet.py` lines 42-45). -/
def wins (c : Config) (s : TrialState) : Bool :=
  if c.winIsBetAmount then decide (s.totalBet ≥ c.target)
  else decide (s.curr ≥ c.target)

/-- The initial trial state of `Strategy.run` (`src/bet.py` lines 25-27). -/
def initState (c : Config) : TrialState :=
  ⟨c.start, 0, 0⟩

/-- `Strategy.run` (`src/bet.py` lines 24-45): run the loop from the initial
state and evaluate the win condition at exit. -/
def Strategy.run (c : Config) (nextBet : ℤ → ℤ → ℤ) (draws : ℕ → Bool)
    (fuel : ℕ) : Option Bool :=
  (runLoop c nextBet draws fuel (initState c)).map (wins c)

/-- `s` steps to `t` in zero or more settled rounds of the loop. -/
def Reaches (c : Config) (nextBet : ℤ → ℤ → ℤ) (draws : ℕ → Bool)
    (s t : TrialState) : Prop :=
  Relation.ReflTransGen (fun a b => step c nextBet draws a = .cont b) s t

/-- Python 3 `round` on an exact rational: round to the nearest integer,
ties to the even integer. -/
def roundHalfEven (q : ℚ) : ℤ :=
  let f := ⌊q⌋
  if q - f < 1/2 then f
  else if 1/2 < q - f then f + 1
  else if f % 2 = 0 then f else f + 1

/-- `AllBetStragegy.get_next_bet` (`src/bet.py` lines 49-50): bet the whole
bankroll. -/
def AllBetStragegy.get_next_bet (curr totalBet : ℤ) : ℤ :=
  curr

/-- `MinBetStragegy.get_next_bet` (`src/bet.py` lines 54-55): always bet
`min_bet`. -/
def MinBetStragegy.get_next_bet (c : Config) (curr totalBet : ℤ) : ℤ :=
  c.minBet

/-- `FixedBetStrategy.get_next_bet` (`src/bet.py` lines 65-66). -/
def FixedBetStrategy.get_next_bet (betSize : ℤ) (curr totalBet : ℤ) : ℤ :=
  min betSize curr

/-- `FractionBetStrategy.get_next_bet` (`src/bet.py` lines 76-77):
`int(round(self.fraction * curr))`. -/
def FractionBetStrategy.get_next_bet (fraction : ℚ) (curr totalBet : ℤ) : ℤ :=
  roundHalfEven (fraction * curr)

/-- `FractionCumulativeBetStrategy.get_next_bet` (`src/bet.py` lines 90-94). -/
def FractionCumulativeBetStrategy.get_next_bet (fraction : ℚ)
    (startingBet : ℤ) (curr totalBet : ℤ) : ℤ :=
  if totalBet = 0 then startingBet else roundHalfEven (fraction * totalBet)

/-- `KellyBetStrategy.get_next_bet` (`src/bet.py` lines 98-106).  Python
`//` is floor division, embedded as `Int.fdiv`. -/
def KellyBetStrategy.get_next_bet (c : Config) (curr totalBet : ℤ) : ℤ :=
  if c.winIsBetAmount then
    if curr ≥ c.target - totalBet then c.target - totalBet
    else min ((c.target - totalBet - curr + 1).fdiv 2) curr
  else min curr (c.target - curr)

/-- The best-policy accumulation of `run` (`src/bet.py` lines 157-165):
starting from `best = None, best_nwins = 0`, scan the `(name, nwins)`
results in registration order and update on a strictly greater win count. -/
def selectBest (results : List (String × ℕ)) : Option String × ℕ :=
  results.foldl
    (fun acc r => if r.2 > acc.2 then (some r.1, r.2) else acc)
    (none, 0)

/-- The maximum win count over a result list (0 for the empty list); a
specification-side quantity used to state the best-policy claims. -/
def maxCount (results : List (String × ℕ)) : ℕ :=
  results.foldr (fun r a => max r.2 a) 0

/-! ### Basic lemmas about the loop embedding -/

theorem should_bet_again_true_iff (c : Config) (curr totalBet : ℤ) :
    should_bet_again c curr totalBet = true ↔
      c.minBet ≤ curr ∧
        (if c.winIsBetAmount then totalBet < c.target else curr < c.target) := by
  unfold should_bet_again
  by_cases h1 : curr < c.minBet <;> by_cases h2 : c.winIsBetAmount <;>
    simp [h1, h2] <;> omega

/-- Introduction form for a settled round: if the loop guard holds and the
raw bet does not exceed the bankroll, the loop body performs one settled
round with stake `max minBet bet`. -/
theorem step_cont_def (c : Config) (nextBet : ℤ → ℤ → ℤ) (draws : ℕ → Bool)
    (s : TrialState) (h1 : should_bet_again c s.curr s.totalBet = true)
    (h2 : nextBet s.curr s.totalBet ≤ s.curr) :
    step c nextBet draws s =
      .cont ⟨(if draws s.nsteps then
                s.curr + max c.minBet (nextBet s.curr s.totalBet)
              else s.curr - max c.minBet (nextBet s.curr s.totalBet)),
             s.totalBet + max c.minBet (nextBet s.curr s.totalBet),
             s.nsteps + 1⟩ := by
  unfold step
  rw [if_pos h1, if_neg (not_lt.mpr h2)]

/-- Inversion for a settled round. -/
theorem step_cont_elim {c : Config} {nextBet : ℤ → ℤ → ℤ} {draws : ℕ → Bool}
    {s t : TrialState} (h : step c nextBet draws s = .cont t) :
    should_bet_again c s.curr s.totalBet = true ∧
      nextBet s.curr s.totalBet ≤ s.curr ∧
      t = ⟨(if draws s.nsteps then
              s.curr + max c.minBet (nextBet s.curr s.totalBet)
            else s.curr - max c.minBet (nextBet s.curr s.totalBet)),
           s.totalBet + max c.minBet (nextBet s.curr s.totalBet),
           s.nsteps + 1⟩ := by
  unfold step at h
  by_cases h1 : should_bet_again c s.curr s.totalBet
  · rw [if_pos h1] at h
    by_cases h2 : nextBet s.curr s.totalBet > s.curr
    · rw [if_pos h2] at h
      exact absurd h (by simp)
    · rw [if_neg h2] at h
      exact ⟨h1, not_lt.mp h2, (StepResult.cont.injEq _ _ ▸ h).symm⟩
  · rw [if_neg h1] at h
    exact absurd h (by simp)

/-- Inversion for a loop exit: `done` always carries the unchanged state. -/
theorem step_done_elim {c : Config} {nextBet : ℤ → ℤ → ℤ} {draws : ℕ → Bool}
    {s t : TrialState} (h : step c nextBet draws s = .done t) : t = s := by
  unfold step at h
  by_cases h1 : should_bet_again c s.curr s.totalBet
  · rw [if_pos h1] at h
    by_cases h2 : nextBet s.curr s.totalBet > s.curr
    · rw [if_pos h2] at h
      exact (StepResult.done.injEq _ _ ▸ h).symm
    · rw [if_neg h2] at h
      exact absurd h (by simp)
  · rw [if_neg h1] at h
    exact (StepResult.done.injEq _ _ ▸ h).symm

/-- Whatever `runLoop` returns is reachable from its starting state. -/
theorem runLoop_reaches {c : Config} {nextBet : ℤ → ℤ → ℤ} {draws : ℕ → Bool} :
    ∀ {fuel : ℕ} {s t : TrialState},
      runLoop c nextBet draws fuel s = some t → Reaches c nextBet draws s t := by
  intro fuel
  induction fuel with
  | zero => intro s t h; exact absurd h (by simp [runLoop])
  | succ f ih =>
    intro s t h
    unfold runLoop at h
    rcases hs : step c nextBet draws s with u | u
    · rw [hs] at h
      cases h
      rw [step_done_elim hs]
      exact Relation.ReflTransGen.refl
    · rw [hs] at h
      exact Relation.ReflTransGen.head hs (ih h)

/-! ### Claim C2 -/

/-- Claim C2, counterexample.  The claim states the continuation check
returns false iff `bankroll <= 0` or the target is reached.  With
`minBet = 2`, `target = 20`, `winIsBetAmount = false`, bankroll 1 and
total wagered 0, the code returns false (because `1 < minBet`), yet the
bankroll is positive and the target is not reached: the stated
equivalence fails. -/
theorem C2_counterexample :
    should_bet_again ⟨10, 20, 2, false⟩ 1 0 = false ∧
      ¬ ((1 : ℤ) ≤ 0 ∨ (20 : ℤ) ≤ (1 : ℤ)) := by
  decide

/-- Claim C2, amended: for every policy variant and every state, the
continuation check returns false iff `bankroll < minBet` or the target is
already reached, where target reached means `totalWagered >= target` when
`winIsBetAmount` is true and `bankroll >= target` otherwise.  The source
uses the `bankroll < minBet` ruin threshold; over integer bankrolls it
coincides with the claimed `bankroll <= 0` exactly when `minBet = 1`,
which is the only value the repository ever passes (second conjunct). -/
theorem C2_amended_theorem :
    (∀ (c : Config) (curr totalBet : ℤ),
        should_bet_again c curr totalBet = false ↔
          curr < c.minBet ∨
            (if c.winIsBetAmount then c.target ≤ totalBet
             else c.target ≤ curr)) ∧
      (∀ (start target : ℤ) (w : Bool) (curr totalBet : ℤ),
        should_bet_again ⟨start, target, 1, w⟩ curr totalBet = false ↔
          curr ≤ 0 ∨ (if w then target ≤ totalBet else target ≤ curr)) := by
  constructor
  · intro c curr totalBet
    unfold should_bet_again
    by_cases h1 : curr < c.minBet <;> by_cases h2 : c.winIsBetAmount <;>
      simp [h1, h2] <;> omega
  · intro start target w curr totalBet
    unfold should_bet_again
    by_cases h1 : curr < (1 : ℤ) <;> cases w <;> simp [h1] <;> omega

/-! ### Claim C4 -/

/-- Claim C4, confirmed: for every configuration and state, KellyBet's
`get_next_bet` returns, when `winIsBetAmount` is true, exactly
`target - totalWagered` if `target - totalWagered <= bankroll` and
otherwise `min(floor((target - totalWagered - bankroll + 1) / 2), bankroll)`
(floor division, as Python `//`); and when `winIsBetAmount` is false,
`min(bankroll, target - bankroll)`. -/
theorem C4_theorem (c : Config) (curr totalBet : ℤ) :
    KellyBetStrategy.get_next_bet c curr totalBet =
      if c.winIsBetAmount then
        (if c.target - totalBet ≤ curr then c.target - totalBet
         else min ((c.target - totalBet - curr + 1).fdiv 2) curr)
      else min curr (c.target - curr) :=
  rfl

/-! ### Claim C9 -/

/-- Claim C9, confirmed: with `start = 10`, `target = 20`,
`winIsBetAmount = false`, `minBet = 1`, the AllIn policy and a first draw
that is a win, the loop performs exactly one settled round, ending with
bankroll 20, total wagered 10 and step count 1, and the trial reports a
win.  (The win probability `p = 0.5` enters the source only through the
comparison `p >= q` that the draw stream abstracts.) -/
theorem C9_theorem :
    runLoop ⟨10, 20, 1, false⟩ AllBetStragegy.get_next_bet (fun _ => true) 5
        (initState ⟨10, 20, 1, false⟩) = some ⟨20, 10, 1⟩ ∧
      Strategy.run ⟨10, 20, 1, false⟩ AllBetStragegy.get_next_bet
        (fun _ => true) 5 = some true := by
  decide

/-! ### Claim C1 -/

/-- Claim C1, counterexample.  The claim states that a policy stake of 0
or less ends the trial immediately, with no change to totalWagered,
bankroll or stepCount.  With FractionBet(1/100), bankroll 10, `minBet = 1`,
`target = 20`, `winIsBetAmount = false`, the raw stake is 0, yet the loop
does not end: the runner clamps the stake to `max(minBet, 0) = 1` and
settles a normal round (a winning draw moves the state to bankroll 11,
totalWagered 1, stepCount 1). -/
theorem C1_counterexample :
    FractionBetStrategy.get_next_bet (1/100) 10 0 = 0 ∧
      step ⟨10, 20, 1, false⟩ (FractionBetStrategy.get_next_bet (1/100))
        (fun _ => true) ⟨10, 0, 0⟩ = .cont ⟨11, 1, 1⟩ := by
  have h : FractionBetStrategy.get_next_bet (1/100) 10 0 = 0 := by
    simp only [FractionBetStrategy.get_next_bet, roundHalfEven]
    norm_num
  refine ⟨h, ?_⟩
  simp only [step, should_bet_again]
  norm_num [h]

/-- Claim C1, amended: a stake of 0 or less returned by `nextBet` does not
end the trial; the runner clamps it up to `minBet` (here `minBet >= 1`)
and the round proceeds as a normal settled step, updating bankroll,
totalWagered and stepCount.  Only a stake exceeding the bankroll ends the
trial early. -/
theorem C1_amended_theorem (c : Config) (nextBet : ℤ → ℤ → ℤ)
    (draws : ℕ → Bool) (s : TrialState) (h0 : 1 ≤ c.minBet)
    (h1 : should_bet_again c s.curr s.totalBet = true)
    (h2 : nextBet s.curr s.totalBet ≤ 0) :
    step c nextBet draws s =
      .cont ⟨(if draws s.nsteps then s.curr + c.minBet else s.curr - c.minBet),
             s.totalBet + c.minBet, s.nsteps + 1⟩ := by
  have hcurr : c.minBet ≤ s.curr := ((should_bet_again_true_iff c _ _).mp h1).1
  have hle : nextBet s.curr s.totalBet ≤ s.curr := by omega
  have hmax : max c.minBet (nextBet s.curr s.totalBet) = c.minBet :=
    max_eq_left (by omega)
  rw [step_cont_def c nextBet draws s h1 hle, hmax]

/-- Witness for the amended claim C1, at FractionBet(1/100), bankroll 10,
`minBet = 1`, `target = 20`, `winIsBetAmount = false`, winning draw. -/
theorem C1_witness :
    (1 : ℤ) ≤ (1 : ℤ) ∧
      should_bet_again ⟨10, 20, 1, false⟩ 10 0 = true ∧
      FractionBetStrategy.get_next_bet (1/100) 10 0 ≤ 0 ∧
      step ⟨10, 20, 1, false⟩ (FractionBetStrategy.get_next_bet (1/100))
        (fun _ => true) ⟨10, 0, 0⟩ = .cont ⟨11, 1, 1⟩ := by
  have h2 : FractionBetStrategy.get_next_bet (1/100) 10 0 ≤ 0 := by
    simp only [FractionBetStrategy.get_next_bet, roundHalfEven]
    norm_num
  refine ⟨by decide, by decide, h2, ?_⟩
  have := C1_amended_theorem ⟨10, 20, 1, false⟩
    (FractionBetStrategy.get_next_bet (1/100)) (fun _ => true) ⟨10, 0, 0⟩
    (by decide) (by decide) h2
  simpa using this

/-! ### Claim C3 -/

/-- Claim C3, counterexample.  The claim states FractionBet stakes
`round(fraction * bankroll)` rounded to the nearest multiple of `minBet`,
and that a rounded result of 0 is placed as a stake of exactly 1.  With
`minBet = 3` (`target = 100`, `winIsBetAmount = false`): (i) at fraction
1/2 and bankroll 8 the code stakes 4, which is not a multiple of 3 (the
nearest multiple of 3 is 3); (ii) at fraction 1/100 and bankroll 10 the
rounded result is 0 and the placed stake is `max(minBet, 0) = 3`, not 1. -/
theorem C3_counterexample :
    FractionBetStrategy.get_next_bet (1/2) 8 0 = 4 ∧
      (4 : ℤ) % 3 = 1 ∧
      step ⟨10, 100, 3, false⟩ (FractionBetStrategy.get_next_bet (1/2))
        (fun _ => true) ⟨8, 0, 0⟩ = .cont ⟨12, 4, 1⟩ ∧
      FractionBetStrategy.get_next_bet (1/100) 10 0 = 0 ∧
      step ⟨10, 100, 3, false⟩ (FractionBetStrategy.get_next_bet (1/100))
        (fun _ => true) ⟨10, 0, 0⟩ = .cont ⟨13, 3, 1⟩ := by
  have h1 : FractionBetStrategy.get_next_bet (1/2) 8 0 = 4 := by
    simp only [FractionBetStrategy.get_next_bet, roundHalfEven]
    norm_num
  have h2 : FractionBetStrategy.get_next_bet (1/100) 10 0 = 0 := by
    simp only [FractionBetStrategy.get_next_bet, roundHalfEven]
    norm_num
  refine ⟨h1, by decide, ?_, h2, ?_⟩
  · simp only [step, should_bet_again]
    norm_num [h1]
  · simp only [step, should_bet_again]
    norm_num [h2]

/-- Claim C3, amended: FractionBet(fraction) computes the raw stake
`round(fraction * bankroll)` to the nearest integer (round half to even,
Python `round`), with no rounding to multiples of `minBet`; whenever the
raw stake (in particular a raw stake of 0) is below `minBet`, the runner
places `max(minBet, raw)` instead, which equals 1 only when `minBet = 1`. -/
theorem C3_amended_theorem (c : Config) (fraction : ℚ) (draws : ℕ → Bool)
    (s : TrialState) (h1 : should_bet_again c s.curr s.totalBet = true)
    (h2 : roundHalfEven (fraction * s.curr) ≤ s.curr) :
    FractionBetStrategy.get_next_bet fraction s.curr s.totalBet =
        roundHalfEven (fraction * s.curr) ∧
      step c (FractionBetStrategy.get_next_bet fraction) draws s =
        .cont ⟨(if draws s.nsteps then
                  s.curr + max c.minBet (roundHalfEven (fraction * s.curr))
                else s.curr - max c.minBet (roundHalfEven (fraction * s.curr))),
               s.totalBet + max c.minBet (roundHalfEven (fraction * s.curr)),
               s.nsteps + 1⟩ :=
  ⟨rfl, step_cont_def c (FractionBetStrategy.get_next_bet fraction) draws s h1 h2⟩

/-- Witness for the amended claim C3, at fraction 1/2, bankroll 8,
`minBet = 3`, `target = 100`, `winIsBetAmount = false`, winning draw. -/
theorem C3_witness :
    should_bet_again ⟨10, 100, 3, false⟩ 8 0 = true ∧
      roundHalfEven (1/2 * ((8 : ℤ) : ℚ)) ≤ 8 ∧
      step ⟨10, 100, 3, false⟩ (FractionBetStrategy.get_next_bet (1/2))
        (fun _ => true) ⟨8, 0, 0⟩ = .cont ⟨12, 4, 1⟩ := by
  have hr : roundHalfEven (1/2 * ((8 : ℤ) : ℚ)) = 4 := by
    simp only [roundHalfEven]
    norm_num
  have h2 : roundHalfEven (1/2 * ((8 : ℤ) : ℚ)) ≤ 8 := by rw [hr]; norm_num
  refine ⟨by decide, h2, ?_⟩
  have := (C3_amended_theorem ⟨10, 100, 3, false⟩ (1/2) (fun _ => true)
    ⟨8, 0, 0⟩ (by decide) h2).2
  rw [this, hr]
  norm_num

/-! ### Claim C6 -/

/-- Claim C6, confirmed: for every policy, configuration, draw stream and
state, if `nextBet` returns a stake strictly greater than the current
bankroll while the loop guard holds, the loop exits at that point with
the state unchanged, and the trial result is the win test evaluated on
that unchanged state.  No error value exists on this path: the run
returns an ordinary Boolean result. -/
theorem C6_theorem (c : Config) (nextBet : ℤ → ℤ → ℤ) (draws : ℕ → Bool)
    (s : TrialState) (h1 : should_bet_again c s.curr s.totalBet = true)
    (h2 : s.curr < nextBet s.curr s.totalBet) :
    step c nextBet draws s = .done s ∧
      ∀ fuel : ℕ,
        (runLoop c nextBet draws (fuel + 1) s).map (wins c) = some (wins c s) := by
  have hd : step c nextBet draws s = .done s := by
    unfold step
    rw [if_pos h1, if_pos h2]
  exact ⟨hd, fun fuel => by simp [runLoop, hd]⟩

/-- Witness for claim C6, at FractionBet(2) (raw stake 20 on bankroll 10),
`minBet = 1`, `target = 100`, `winIsBetAmount = false`. -/
theorem C6_witness :
    should_bet_again ⟨10, 100, 1, false⟩ 10 0 = true ∧
      (10 : ℤ) < FractionBetStrategy.get_next_bet 2 10 0 ∧
      (step ⟨10, 100, 1, false⟩ (FractionBetStrategy.get_next_bet 2)
          (fun _ => true) ⟨10, 0, 0⟩ = .done ⟨10, 0, 0⟩ ∧
        ∀ fuel : ℕ,
          (runLoop ⟨10, 100, 1, false⟩ (FractionBetStrategy.get_next_bet 2)
              (fun _ => true) (fuel + 1) ⟨10, 0, 0⟩).map
              (wins ⟨10, 100, 1, false⟩) =
            some (wins ⟨10, 100, 1, false⟩ ⟨10, 0, 0⟩)) := by
  have h2 : (10 : ℤ) < FractionBetStrategy.get_next_bet 2 10 0 := by
    simp only [FractionBetStrategy.get_next_bet, roundHalfEven]
    norm_num
  exact ⟨by decide, h2,
    C6_theorem ⟨10, 100, 1, false⟩ (FractionBetStrategy.get_next_bet 2)
      (fun _ => true) ⟨10, 0, 0⟩ (by decide) h2⟩

/-- Arithmetic facts about one settled round, for any policy: the stake
actually added to the wagered total lies between `minBet` and the bankroll
before the round, the step counter increases by one, the loop guard held
(so the bankroll was at least `minBet`), and the bankroll moved by exactly
the stake, up or down. -/
theorem step_cont_facts {c : Config} {nextBet : ℤ → ℤ → ℤ} {draws : ℕ → Bool}
    {s t : TrialState} (h : step c nextBet draws s = .cont t) :
    c.minBet ≤ t.totalBet - s.totalBet ∧
      t.totalBet - s.totalBet ≤ s.curr ∧
      t.nsteps = s.nsteps + 1 ∧
      c.minBet ≤ s.curr ∧
      (t.curr = s.curr + (t.totalBet - s.totalBet) ∨
        t.curr = s.curr - (t.totalBet - s.totalBet)) := by
  rcases step_cont_elim h with ⟨h1, h2, rfl⟩
  have hcurr : c.minBet ≤ s.curr := ((should_bet_again_true_iff c _ _).mp h1).1
  have hb1 : c.minBet ≤ max c.minBet (nextBet s.curr s.totalBet) :=
    le_max_left _ _
  have hb2 : max c.minBet (nextBet s.curr s.totalBet) ≤ s.curr :=
    max_le hcurr h2
  cases hdraw : draws s.nsteps <;> simp [hdraw] <;> omega

/-! ### Claim C10 -/

/-- Claim C10, confirmed: for every policy, configuration with
`start >= 0` and `minBet >= 1`, and draw stream, (i) every settled round
wagers a stake with `minBet <= stake <= bankroll-before-the-round` and
leaves a nonnegative bankroll, (ii) every state reachable from the initial
state has a nonnegative bankroll, and (iii) the state at loop exit — the
state the trial terminates in — has a nonnegative bankroll. -/
theorem C10_theorem (c : Config) (nextBet : ℤ → ℤ → ℤ) (draws : ℕ → Bool)
    (h0 : 1 ≤ c.minBet) (h1 : 0 ≤ c.start) :
    (∀ s t : TrialState, step c nextBet draws s = .cont t →
        c.minBet ≤ t.totalBet - s.totalBet ∧
          t.totalBet - s.totalBet ≤ s.curr ∧ 0 ≤ t.curr) ∧
      (∀ s : TrialState,
        Reaches c nextBet draws (initState c) s → 0 ≤ s.curr) ∧
      (∀ (fuel : ℕ) (t : TrialState),
        runLoop c nextBet draws fuel (initState c) = some t → 0 ≤ t.curr) := by
  have hstep : ∀ s t : TrialState, step c nextBet draws s = .cont t →
      c.minBet ≤ t.totalBet - s.totalBet ∧
        t.totalBet - s.totalBet ≤ s.curr ∧ 0 ≤ t.curr := by
    intro s t h
    obtain ⟨ha, hb, hc', hd, he⟩ := step_cont_facts h
    exact ⟨ha, hb, by rcases he with he | he <;> omega⟩
  have hreach : ∀ s : TrialState,
      Reaches c nextBet draws (initState c) s → 0 ≤ s.curr := by
    intro s h
    induction h with
    | refl => simpa [initState] using h1
    | tail hab hbc ih => exact (hstep _ _ hbc).2.2
  exact ⟨hstep, hreach, fun fuel t h => hreach t (runLoop_reaches h)⟩

/-- Witness for claim C10, with the AllIn policy, `start = 10`,
`target = 20`, `minBet = 1`, `winIsBetAmount = false`. -/
theorem C10_witness :
    (1 : ℤ) ≤ 1 ∧ (0 : ℤ) ≤ 10 ∧
      ((∀ s t : TrialState,
          step ⟨10, 20, 1, false⟩ AllBetStragegy.get_next_bet
              (fun _ => true) s = .cont t →
            (1 : ℤ) ≤ t.totalBet - s.totalBet ∧
              t.totalBet - s.totalBet ≤ s.curr ∧ 0 ≤ t.curr) ∧
        (∀ s : TrialState,
          Reaches ⟨10, 20, 1, false⟩ AllBetStragegy.get_next_bet
              (fun _ => true) (initState ⟨10, 20, 1, false⟩) s → 0 ≤ s.curr) ∧
        (∀ (fuel : ℕ) (t : TrialState),
          runLoop ⟨10, 20, 1, false⟩ AllBetStragegy.get_next_bet
              (fun _ => true) fuel (initState ⟨10, 20, 1, false⟩) = some t →
            0 ≤ t.curr)) :=
  ⟨by decide, by decide,
    C10_theorem ⟨10, 20, 1, false⟩ AllBetStragegy.get_next_bet
      (fun _ => true) (by decide) (by decide)⟩

/-! ### Claim C8 -/

theorem roundHalfEven_intCast (n : ℤ) : roundHalfEven ((n : ℚ)) = n := by
  unfold roundHalfEven
  rw [Int.floor_intCast]
  norm_num

/-- Claim C8, confirmed: FractionBet with fraction 1 computes the same
stake as AllIn on every integer bankroll (rounding `1 * bankroll` returns
the bankroll exactly), and therefore the two policies produce identical
loop behaviour — the same state after any number of rounds from any state
— and the same win/loss result, for every configuration, draw stream and
fuel.  Python floats are modelled as exact rationals here; at fraction 1.0
the float product `1.0 * curr` is the same real number as the rational
product whenever the bankroll is exactly representable. -/
theorem C8_theorem :
    (∀ curr totalBet : ℤ,
        FractionBetStrategy.get_next_bet 1 curr totalBet =
          AllBetStragegy.get_next_bet curr totalBet) ∧
      (∀ (c : Config) (draws : ℕ → Bool) (fuel : ℕ) (s : TrialState),
        runLoop c (FractionBetStrategy.get_next_bet 1) draws fuel s =
          runLoop c AllBetStragegy.get_next_bet draws fuel s) ∧
      (∀ (c : Config) (draws : ℕ → Bool) (fuel : ℕ),
        Strategy.run c (FractionBetStrategy.get_next_bet 1) draws fuel =
          Strategy.run c AllBetStragegy.get_next_bet draws fuel) := by
  have hfun : FractionBetStrategy.get_next_bet 1 =
      AllBetStragegy.get_next_bet := by
    funext curr totalBet
    unfold FractionBetStrategy.get_next_bet AllBetStragegy.get_next_bet
    rw [one_mul]
    exact roundHalfEven_intCast curr
  exact ⟨fun curr tb => by rw [hfun], fun c d f s => by rw [hfun],
    fun c d f => by rw [hfun]⟩

/-! ### Claim C5 -/

/-- One settled KellyBet round under `winIsBetAmount = true` and
`minBet = 1`: the wagered total was strictly below the target before the
round, grows by at least 1, and never passes the target (the lock-in
branch bets exactly the remaining need; the halving branch bets at most
the bankroll, which is strictly below the remaining need). -/
theorem kelly_step_facts {c : Config} {draws : ℕ → Bool} {s t : TrialState}
    (hw : c.winIsBetAmount = true) (hm : c.minBet = 1)
    (h : step c (KellyBetStrategy.get_next_bet c) draws s = .cont t) :
    s.totalBet < c.target ∧ s.totalBet + 1 ≤ t.totalBet ∧
      t.totalBet ≤ c.target ∧ t.nsteps = s.nsteps + 1 := by
  rcases step_cont_elim h with ⟨h1, h2, rfl⟩
  obtain ⟨hcurr, htar⟩ := (should_bet_again_true_iff c _ _).mp h1
  rw [hw] at htar
  simp only [if_true] at htar
  rw [hm] at hcurr
  have key : 1 ≤ KellyBetStrategy.get_next_bet c s.curr s.totalBet ∧
      s.totalBet + KellyBetStrategy.get_next_bet c s.curr s.totalBet ≤
        c.target := by
    unfold KellyBetStrategy.get_next_bet
    by_cases hc : s.curr ≥ c.target - s.totalBet
    · simp [hw, hc]
      omega
    · simp [hw, hc]
      rw [Int.fdiv_eq_ediv _ (by norm_num : (0 : ℤ) ≤ 2)]
      push_neg at hc
      omega
  have hmax : max c.minBet (KellyBetStrategy.get_next_bet c s.curr s.totalBet)
      = KellyBetStrategy.get_next_bet c s.curr s.totalBet := by
    rw [hm]
    exact max_eq_right key.1
  refine ⟨htar, ?_, ?_, rfl⟩ <;> dsimp only <;> rw [hmax] <;> omega

/-- The KellyBet loop under `winIsBetAmount = true`, `minBet = 1` exits
within the fuel bound as long as the fuel strictly exceeds the remaining
need `target - totalWagered`: each settled round adds at least 1 to the
wagered total and the loop guard requires it to stay below the target. -/
theorem kelly_loop_terminates {c : Config} {draws : ℕ → Bool}
    (hw : c.winIsBetAmount = true) (hm : c.minBet = 1) :
    ∀ (fuel : ℕ) (s : TrialState), s.totalBet ≤ c.target →
      (c.target - s.totalBet).toNat < fuel →
      ∃ t, runLoop c (KellyBetStrategy.get_next_bet c) draws fuel s =
        some t := by
  intro fuel
  induction fuel with
  | zero => intro s ha hb; omega
  | succ f ih =>
    intro s ha hb
    unfold runLoop
    rcases hs : step c (KellyBetStrategy.get_next_bet c) draws s with u | u
    · exact ⟨u, rfl⟩
    · obtain ⟨k1, k2, k3, _⟩ := kelly_step_facts hw hm hs
      exact ih u k3 (by omega)

/-- Claim C5, confirmed: for every KellyBet trial with
`winIsBetAmount = true`, `minBet = 1`, `start >= 1` and `target >= 1`,
every state reachable during the trial satisfies
`totalWagered <= target` (with the step count bounded by the wagered
total), and the loop exits within `target` settled rounds: with fuel
`target + 1` it returns a final state, whose step count is at most
`target`. -/
theorem C5_theorem (c : Config) (draws : ℕ → Bool)
    (hw : c.winIsBetAmount = true) (hm : c.minBet = 1)
    (hs : 1 ≤ c.start) (ht : 1 ≤ c.target) :
    (∀ s : TrialState,
        Reaches c (KellyBetStrategy.get_next_bet c) draws (initState c) s →
          s.totalBet ≤ c.target ∧ (s.nsteps : ℤ) ≤ s.totalBet) ∧
      ∃ t : TrialState,
        runLoop c (KellyBetStrategy.get_next_bet c) draws
            (c.target.toNat + 1) (initState c) = some t ∧
          t.totalBet ≤ c.target ∧ (t.nsteps : ℤ) ≤ c.target := by
  have hinv : ∀ s : TrialState,
      Reaches c (KellyBetStrategy.get_next_bet c) draws (initState c) s →
        s.totalBet ≤ c.target ∧ (s.nsteps : ℤ) ≤ s.totalBet := by
    intro s h
    induction h with
    | refl => simp [initState]; omega
    | tail hab hbc ih =>
      obtain ⟨k1, k2, k3, k4⟩ := kelly_step_facts hw hm hbc
      exact ⟨k3, by omega⟩
  refine ⟨hinv, ?_⟩
  obtain ⟨t, htl⟩ := kelly_loop_terminates hw hm (c.target.toNat + 1)
    (initState c) (by dsimp [initState]; omega) (by dsimp [initState]; omega)
  have h2 := hinv t (runLoop_reaches htl)
  exact ⟨t, htl, h2.1, by omega⟩

/-- Witness for claim C5, at `start = 1`, `target = 1`, `minBet = 1`,
`winIsBetAmount = true`, winning draws. -/
theorem C5_witness :
    (⟨1, 1, 1, true⟩ : Config).winIsBetAmount = true ∧
      (⟨1, 1, 1, true⟩ : Config).minBet = 1 ∧
      (1 : ℤ) ≤ 1 ∧ (1 : ℤ) ≤ 1 ∧
      ((∀ s : TrialState,
          Reaches ⟨1, 1, 1, true⟩
              (KellyBetStrategy.get_next_bet ⟨1, 1, 1, true⟩)
              (fun _ => true) (initState ⟨1, 1, 1, true⟩) s →
            s.totalBet ≤ 1 ∧ (s.nsteps : ℤ) ≤ s.totalBet) ∧
        ∃ t : TrialState,
          runLoop ⟨1, 1, 1, true⟩
              (KellyBetStrategy.get_next_bet ⟨1, 1, 1, true⟩)
              (fun _ => true) ((1 : ℤ).toNat + 1)
              (initState ⟨1, 1, 1, true⟩) = some t ∧
            t.totalBet ≤ 1 ∧ (t.nsteps : ℤ) ≤ 1) :=
  ⟨rfl, rfl, by decide, by decide,
    C5_theorem ⟨1, 1, 1, true⟩ (fun _ => true) rfl rfl (by decide) (by decide)⟩

/-! ### Claim C7 -/

/-- The best-policy fold of `run` started from an arbitrary accumulator,
for reasoning about `selectBest` by induction. -/
def bestFold (acc : Option String × ℕ) (results : List (String × ℕ)) :
    Option String × ℕ :=
  results.foldl (fun acc r => if r.2 > acc.2 then (some r.1, r.2) else acc) acc

theorem selectBest_eq_bestFold (results : List (String × ℕ)) :
    selectBest results = bestFold (none, 0) results :=
  rfl

/-- Characterisation of the strictly-greater best fold: the accumulated
count becomes the maximum of the seed count and the list maximum; if no
entry beats the seed the accumulator is unchanged; and if some entry beats
the seed, the recorded name is the first entry attaining the list
maximum. -/
theorem bestFold_spec :
    ∀ (results : List (String × ℕ)) (b : Option String) (bn : ℕ),
      (bestFold (b, bn) results).2 = max bn (maxCount results) ∧
        (maxCount results ≤ bn → bestFold (b, bn) results = (b, bn)) ∧
        (bn < maxCount results →
          (bestFold (b, bn) results).1 =
            (results.find? (fun r => r.2 == maxCount results)).map
              Prod.fst) := by
  intro results
  induction results with
  | nil =>
    intro b bn
    refine ⟨by simp [bestFold, maxCount], fun _ => rfl, fun h => ?_⟩
    simp [maxCount] at h
  | cons r rs ih =>
    intro b bn
    have hcons : bestFold (b, bn) (r :: rs) =
        bestFold (if bn < r.2 then (some r.1, r.2) else (b, bn)) rs := rfl
    have hmaxc : maxCount (r :: rs) = max r.2 (maxCount rs) := rfl
    by_cases h : bn < r.2
    · rw [hcons, if_pos h]
      obtain ⟨ih1, ih2, ih3⟩ := ih (some r.1) r.2
      refine ⟨?_, ?_, ?_⟩
      · rw [ih1, hmaxc]
        omega
      · intro hle
        rw [hmaxc] at hle
        omega
      · intro hlt
        by_cases hcase : maxCount rs ≤ r.2
        · have hM : maxCount (r :: rs) = r.2 := by rw [hmaxc]; omega
          rw [ih2 hcase, hM]
          simp [List.find?]
        · push_neg at hcase
          have hM : maxCount (r :: rs) = maxCount rs := by rw [hmaxc]; omega
          have hne : (r.2 == maxCount rs) = false := by
            simp
            omega
          rw [hM, ih3 hcase]
          simp [List.find?, hne]
    · rw [hcons, if_neg h]
      obtain ⟨ih1, ih2, ih3⟩ := ih b bn
      have hr : r.2 ≤ bn := by omega
      refine ⟨?_, ?_, ?_⟩
      · rw [ih1, hmaxc]
        omega
      · intro hle
        rw [hmaxc] at hle
        exact ih2 (by omega)
      · intro hlt
        rw [hmaxc] at hlt
        have hM : maxCount (r :: rs) = maxCount rs := by rw [hmaxc]; omega
        have hne : (r.2 == maxCount rs) = false := by
          simp
          omega
        rw [hM, ih3 (by omega)]
        simp [List.find?, hne]

/-- Claim C7, counterexample.  The claim states the reported best policy
is always the first-registered policy whose win count equals the maximum.
When every policy has 0 wins, the maximum (0) is attained by the first
policy, yet the scan never updates its initial `(None, 0)` accumulator,
so no policy name is reported at all. -/
theorem C7_counterexample :
    selectBest [("a", 0), ("b", 0)] = (none, 0) ∧
      maxCount [("a", 0), ("b", 0)] = 0 :=
  ⟨rfl, rfl⟩

/-- Claim C7, amended: provided some policy has a strictly positive win
count, the reported best policy is the first-registered policy whose win
count equals the maximum win count (the strictly-greater comparison while
scanning in registration order keeps the earliest on ties), and the
reported best count is that maximum.  When every win count is 0 the scan
reports no name (`None`) with count 0. -/
theorem C7_amended_theorem (results : List (String × ℕ))
    (h : 0 < maxCount results) :
    (selectBest results).1 =
        (results.find? (fun r => r.2 == maxCount results)).map Prod.fst ∧
      (selectBest results).2 = maxCount results := by
  obtain ⟨h1, h2, h3⟩ := bestFold_spec results none 0
  rw [selectBest_eq_bestFold]
  exact ⟨h3 h, by rw [h1]; omega⟩

/-- Witness for the amended claim C7: on win counts
`[("a", 1), ("b", 2), ("c", 2)]` the maximum is 2, first attained by
`"b"`, and the scan reports `("b", 2)`. -/
theorem C7_witness :
    0 < maxCount [("a", 1), ("b", 2), ("c", 2)] ∧
      ((selectBest [("a", 1), ("b", 2), ("c", 2)]).1 =
          (([("a", 1), ("b", 2), ("c", 2)] : List (String × ℕ)).find?
              (fun r => r.2 == maxCount [("a", 1), ("b", 2), ("c", 2)])).map
            Prod.fst ∧
        (selectBest [("a", 1), ("b", 2), ("c", 2)]).2 =
          maxCount [("a", 1), ("b", 2), ("c", 2)]) :=
  ⟨by decide, C7_amended_theorem [("a", 1), ("b", 2), ("c", 2)] (by decide)⟩

end Bet
